import Mathlib

/-!
# Verification of the `pycinga` plugin library

A shallow embedding of the `pycinga` Python library (`range.py`, `status.py`,
`response.py`, `perf_data.py`, `plugin.py`) together with proofs about it.

Modelling conventions:
* Python `float` values reaching `Range` are modelled by `FVal`: an exact
  rational, or one of the two infinities.  The builtin `float(string)`
  conversion is modelled by `parseFloat`, a decimal parser accepting an
  optional sign, digits and at most one decimal point (Python additionally
  accepts exponents, `inf`/`nan` words, underscores and inner whitespace;
  none of those forms are produced or needed by this library).
* Python strings are modelled by `String` / `List Char`; `str.split` on a
  single-character separator is `splitOnChar`, `str.strip` is `trimChars`.
* Exceptions are modelled by `Except`/`Option` results: `rangeParse` returns
  `Except String Range` where the `error` carries the `RangeValueError`
  message, and `all_responses` returns `none` where the Python code would
  raise `TypeError` from concatenating `None` messages.
* Python object identity (`is`) on `Status` objects is modelled by the `oid`
  field: every distinct allocation of a `Status` carries a distinct `oid`,
  and `pyIs` compares the `oid`s.  `Status.eqv` models `__eq__`, which
  compares only exit codes.
-/

deriving instance DecidableEq for Except

/-! ## Character and string utilities -/

/-- The whitespace characters stripped by Python `str.strip()`. -/
def pySpace (c : Char) : Bool :=
  (c == ' ') || (c == '\t') || (c == '\n') || (c == '\r') || (c == '\x0b') || (c == '\x0c')

/-- Model of Python `str.strip()` on the character list of a string. -/
def trimChars (l : List Char) : List Char :=
  ((l.dropWhile pySpace).reverse.dropWhile pySpace).reverse

/-- Model of Python `str.split(sep)` for a single-character separator:
splitting the empty string yields one empty part. -/
def splitOnChar (sep : Char) : List Char → List (List Char)
  | [] => [[]]
  | c :: rest =>
    match splitOnChar sep rest with
    | [] => [[]]
    | part :: parts => if c == sep then [] :: part :: parts else (c :: part) :: parts

/-- The numeric value of a decimal digit character, `none` on other characters. -/
def charDigit? (c : Char) : Option Nat :=
  if c.isDigit then some (c.toNat - 48) else none

/-- Reads a big-endian run of decimal digit characters into a number,
failing on any non-digit.  `acc` is the value of the digits already read. -/
def digitsValGo (acc : Nat) : List Char → Option Nat
  | [] => some acc
  | c :: cs =>
    match charDigit? c with
    | some d => digitsValGo (acc * 10 + d) cs
    | none => none

/-- Little-endian base-10 digits of `n`, with explicit fuel so that the
definition is structurally recursive. -/
def natDigitsAux : Nat → Nat → List Nat
  | 0, _ => []
  | fuel + 1, n => if n = 0 then [] else n % 10 :: natDigitsAux fuel (n / 10)

/-- Little-endian base-10 digits of `n` (empty for `0`). -/
def natDigits (n : Nat) : List Nat := natDigitsAux n n

/-- The decimal rendering of a natural number, as Python `str` prints it. -/
def natChars (n : Nat) : List Char :=
  if n = 0 then ['0'] else (natDigits n).reverse.map Nat.digitChar

/-- The decimal rendering of an integer, as Python `str` prints it. -/
def intChars (m : Int) : List Char :=
  if m < 0 then '-' :: natChars m.natAbs else natChars m.natAbs

/-! ## Float values: rationals extended with the infinities

`range.py` stores `start` and `end` as Python floats obtained from
`float(...)`, `float("-inf")` or `float("inf")`.  All such values that this
library can construct are exact decimal rationals or infinities, so the
model is exact. -/

/-- A Python float value as used by `range.py`: negative infinity, a finite
(decimal) rational, or positive infinity. -/
inductive FVal
  | ninf
  | fin (q : ℚ)
  | pinf
deriving DecidableEq

/-- Float `<=` on `FVal` (no NaN is ever constructed by this library). -/
def FVal.le : FVal → FVal → Bool
  | .ninf, _ => true
  | _, .pinf => true
  | .fin a, .fin b => a ≤ b
  | _, _ => false

/-- Float `<` on `FVal`. -/
def FVal.lt : FVal → FVal → Bool
  | _, .ninf => false
  | .ninf, _ => true
  | .fin a, .fin b => a < b
  | .fin _, .pinf => true
  | .pinf, _ => false

/-! ## The model of `float(string)` -/

/-- Parses an unsigned decimal numeral: digits with at most one decimal
point, at least one digit in total.  `digitsValGo 0 [] = some 0`, so `"5."`
and `".5"` parse while `"."` and `""` do not, as in Python. -/
def parseUFloat (l : List Char) : Option ℚ :=
  match splitOnChar '.' l with
  | [a] =>
    if a.isEmpty then none
    else
      match digitsValGo 0 a with
      | some n => some ((n : ℕ) : ℚ)
      | none => none
  | [a, b] =>
    if a.isEmpty && b.isEmpty then none
    else
      match digitsValGo 0 a, digitsValGo 0 b with
      | some na, some nb => some ((na : ℚ) + (nb : ℚ) / (10 : ℚ) ^ b.length)
      | _, _ => none
  | _ => none

/-- Model of Python `float(string)` restricted to plain decimal numerals
with an optional leading sign (see the module docstring). -/
def parseFloat (l : List Char) : Option ℚ :=
  match l with
  | '-' :: rest => (parseUFloat rest).map (fun q => -q)
  | '+' :: rest => parseUFloat rest
  | _ => parseUFloat l

/-- The least exponent `k ≤ q.den` such that `q * 10 ^ k` is an integer,
when one exists.  For every value produced by `parseFloat` one exists. -/
def decExp (q : ℚ) : Option Nat :=
  (List.range (q.den + 1)).find? (fun k => (q * (10 : ℚ) ^ k).den == 1)

/-- Renders `m / 10 ^ k` (with `k ≥ 1`) as a decimal numeral with `k`
fractional digits, as Python `str` prints a non-integral float. -/
def decChars (m : Int) (k : Nat) : List Char :=
  let ds := natDigits m.natAbs
  let ds := ds ++ List.replicate (k + 1 - ds.length) 0
  (if m < 0 then ['-'] else []) ++
    ((ds.drop k).reverse.map Nat.digitChar) ++ '.' :: ((ds.take k).reverse.map Nat.digitChar)

/-- Model of Python `str` of a finite float, as `Range.__str__` uses it:
`int(x)` is printed when `x.is_integer()`, a decimal numeral otherwise.
(The `none` branch of `decExp` is unreachable for the decimal values this
library constructs.) -/
def finChars (q : ℚ) : List Char :=
  if q.den = 1 then intChars q.num
  else
    match decExp q with
    | some k => decChars (q * (10 : ℚ) ^ k).num k
    | none => intChars q.num

/-! ## `range.py`: the `Range` class -/

/-- `range.py` `Range`: `inclusive` records the leading `@`, `start` and
`stop` are the bounds (`stop` models the Python attribute `end`, a Lean
keyword). -/
structure Range where
  inclusive : Bool
  start : FVal
  stop : FVal
deriving DecidableEq

/-- `range.py` `Range.in_range`: inclusive ranges match
`start <= value <= end`, exclusive ranges match `value < start or value > end`. -/
def Range.in_range (r : Range) (v : ℚ) : Bool :=
  if r.inclusive then FVal.le r.start (.fin v) && FVal.le (.fin v) r.stop
  else FVal.lt (.fin v) r.start || FVal.lt r.stop (.fin v)

/-- Interpretation of the start part in `Range.__init__`: `~` is negative
infinity, anything else must parse as a float; `none` models the
`RangeValueError` for an invalid start. -/
def bStart (p0 : List Char) : Option FVal :=
  if p0 == ['~'] then some FVal.ninf else (parseFloat p0).map FVal.fin

/-- Interpretation of the end part in `Range.__init__`: empty or `~` is
positive infinity, anything else must parse as a float. -/
def bEnd (p1 : List Char) : Option FVal :=
  if p1 == ([] : List Char) || p1 == ['~'] then some FVal.pinf
  else (parseFloat p1).map FVal.fin

/-- The bound-parsing half of `Range.__init__`: parses the start part and
the end part, then checks `start <= end`. -/
def rangeBounds (inclusive : Bool) (p0 p1 : List Char) : Except String Range :=
  match bStart p0 with
  | none => .error ("invalid start value: " ++ String.mk p0)
  | some st =>
    match bEnd p1 with
    | none => .error ("invalid end value: " ++ String.mk p1)
    | some en =>
      if FVal.lt en st then .error "start must be less than or equal to end"
      else .ok ⟨inclusive, st, en⟩

/-- `range.py` `Range.__init__` on the character list of the input: strip,
reject the empty string, strip a leading `@` (recording inclusivity), split
on `:` (one part means the start defaults to `"0"`), parse the bounds.
The `error` value carries the `RangeValueError` message. -/
def rangeParseChars (l : List Char) : Except String Range :=
  let value := trimChars l
  if value.isEmpty then .error "Range must not be empty"
  else
    let inclusive := value.head? == some '@'
    let value := if inclusive then value.tail else value
    match splitOnChar ':' value with
    | [p] => rangeBounds inclusive ['0'] p
    | [p0, p1] => rangeBounds inclusive p0 p1
    | _ => .error "Range cannot have more than two parts."

/-- `range.py` `Range.__init__` on a string input. -/
def rangeParse (s : String) : Except String Range := rangeParseChars s.data

/-- The start portion of `Range.__str__`: omitted when the start is `0`,
`~:` for negative infinity, otherwise the printed value and a `:`
(positive infinity prints as Python `str(float("inf"))`). -/
def startChars : FVal → List Char
  | .ninf => ['~', ':']
  | .pinf => ['i', 'n', 'f', ':']
  | .fin q => if q = 0 then [] else finChars q ++ [':']

/-- The end portion of `Range.__str__`: `~` for positive infinity,
otherwise the printed value (negative infinity prints as `str(float("-inf"))`). -/
def stopChars : FVal → List Char
  | .pinf => ['~']
  | .ninf => ['-', 'i', 'n', 'f']
  | .fin q => finChars q

/-- `range.py` `Range.__str__`: a leading `@` when inclusive; the start with
a `:` unless it is `0` (negative infinity prints as `~:`); then the end
(positive infinity printing as `~`). -/
def rangeStr (r : Range) : String :=
  String.mk ((if r.inclusive then ['@'] else []) ++ startChars r.start ++ stopChars r.stop)

/-! ## `status.py`: the `Status` class -/

/-- `status.py` `Status`: a display name and an exit code.  `oid` models
Python object identity: each allocation of a `Status` carries a fresh `oid`
(the four canonical constants use `0`–`3`). -/
structure Status where
  name : String
  exit_code : Int
  oid : Nat
deriving DecidableEq

/-- `Status.__lt__`: comparison by exit code only. -/
def Status.ltv (a b : Status) : Bool := a.exit_code < b.exit_code

/-- `Status.__eq__`: comparison by exit code only. -/
def Status.eqv (a b : Status) : Bool := a.exit_code == b.exit_code

/-- `Status.__ne__`: comparison by exit code only. -/
def Status.nev (a b : Status) : Bool := a.exit_code != b.exit_code

/-- `Status.__gt__`: comparison by exit code only. -/
def Status.gtv (a b : Status) : Bool := a.exit_code > b.exit_code

/-- Python `is` on `Status` objects: identity of the allocation. -/
def pyIs (a b : Status) : Bool := a.oid == b.oid

/-- `plugin.py` constant `OK = Status("OK", 0)`. -/
def OK : Status := ⟨"OK", 0, 0⟩

/-- `plugin.py` constant `WARNING = Status("WARN", 1)`. -/
def WARNING : Status := ⟨"WARN", 1, 1⟩

/-- `plugin.py` constant `CRITICAL = Status("CRIT", 2)`. -/
def CRITICAL : Status := ⟨"CRIT", 2, 2⟩

/-- `plugin.py` constant `UNKNOWN = Status("UNKNOWN", 3)`. -/
def UNKNOWN : Status := ⟨"UNKNOWN", 3, 3⟩

/-! ## `perf_data.py`: the `PerfData` class

The stored field values are modelled in their string form (`label` and
`value` are strings in the formatted output; `uom`, `minval` and `maxval`
render by `str`), `warn` and `crit` are `Range` values. -/

/-- `perf_data.py` `PerfData` after successful validation. -/
structure PerfData where
  label : String
  value : String
  uom : Option String
  warn : Option Range
  crit : Option Range
  minval : Option String
  maxval : Option String
deriving DecidableEq

/-- Python `str.replace("'", "''")`: every single quote is doubled. -/
def doubleQuotes : List Char → List Char
  | [] => []
  | c :: cs => if c == '\'' then '\'' :: '\'' :: doubleQuotes cs else c :: doubleQuotes cs

/-- `perf_data.py` `PerfData._quote_if_needed`: wrap the label in single
quotes, doubling embedded quotes, when it contains `=`, a space or a quote. -/
def quote_if_needed (v : List Char) : List Char :=
  if v.contains '=' || v.contains ' ' || v.contains '\'' then
    '\'' :: doubleQuotes v ++ ['\'']
  else v

/-- Rendering of an optional string field under `x or ""`: `None` becomes
the empty string (an empty string stays empty either way). -/
def orEmpty : Option String → String
  | none => ""
  | some s => s

/-- Rendering of the optional `warn`/`crit` ranges: a `Range` object is
always truthy, so `x or ""` keeps it, and `str` renders it. -/
def rangeOrEmpty : Option Range → String
  | none => ""
  | some r => rangeStr r

/-- `perf_data.py` `PerfData.__str__`:
`"%s=%s%s;%s;%s;%s;%s" % (label, value, uom, warn, crit, minval, maxval)`. -/
def perfStr (p : PerfData) : String :=
  String.mk (quote_if_needed p.label.data) ++ "=" ++ p.value ++ orEmpty p.uom ++ ";" ++
    rangeOrEmpty p.warn ++ ";" ++ rangeOrEmpty p.crit ++ ";" ++
    orEmpty p.minval ++ ";" ++ orEmpty p.maxval

/-! ## `response.py`: the `Response` class -/

/-- `response.py` `Response`: a status, an optional message, and performance
data (an ordered dict of `PerfData`, modelled as the list of its values in
insertion order). -/
structure Response where
  status : Status
  message : Option String
  perf_data : List PerfData
deriving DecidableEq

/-! ## `plugin.py`: `response_for_value` and `all_responses` -/

/-- `plugin.py` `Plugin.response_for_value`: the critical range is tested
first, then the warning range; a missing range never triggers.  (`warning`
and `critical` model the parsed command-line options.) -/
def response_for_value (warning critical : Option Range) (value : ℚ)
    (message : Option String) : Response :=
  let status :=
    match critical with
    | some c => if c.in_range value then CRITICAL else
        match warning with
        | some w => if w.in_range value then WARNING else OK
        | none => OK
    | none =>
        match warning with
        | some w => if w.in_range value then WARNING else OK
        | none => OK
  ⟨status, message, []⟩

/-- One step of Python `list.sort(reverse=True, key=lambda k: k.status)`:
inserts `r` into the already descending-sorted `l`, before the first entry
whose exit code is not above `r`'s.  Processing the original list from the
right with this insertion is exactly the unique stable descending sort that
`list.sort` produces. -/
def insertDesc (r : Response) : List Response → List Response
  | [] => [r]
  | x :: xs =>
    if x.status.exit_code ≤ r.status.exit_code then r :: x :: xs
    else x :: insertDesc r xs

/-- Model of `self.responses.sort(reverse=True, key=lambda k: k.status)`:
the stable descending sort by status (i.e. by exit code). -/
def sortDesc : List Response → List Response
  | [] => []
  | x :: xs => insertDesc x (sortDesc xs)

/-- The message-accumulation loop of `Plugin.all_responses`: `laststatus`
is compared with `is` (object identity).  Returns `none` where Python
raises `TypeError`: when the accumulated message or a visited message is
`None`, string concatenation fails. -/
def msgLoop (laststatus : Status) (acc : Option String) :
    List Response → Option (Option String)
  | [] => some acc
  | r :: rest =>
    match acc, r.message with
    | some a, some m =>
      if pyIs laststatus r.status then msgLoop laststatus (some (a ++ ", " ++ m)) rest
      else msgLoop r.status (some (a ++ " " ++ r.status.name ++ ": " ++ m)) rest
    | _, _ => none

/-- `plugin.py` `Plugin.all_responses`: with no responses, the (truthy)
`default` or `Response(OK)`; otherwise sort descending by status, take the
first entry's status and message and fold the rest into the message.
`none` models the `TypeError` raised on `None` messages. -/
def all_responses (responses : List Response) (default : Option Response) :
    Option Response :=
  match responses with
  | [] =>
    match default with
    | some d => some d
    | none => some ⟨OK, none, []⟩
  | _ :: _ =>
    match sortDesc responses with
    | [] => none
    | worst :: rest =>
      match msgLoop worst.status worst.message rest with
      | some msg => some ⟨worst.status, msg, []⟩
      | none => none

/-! ## Spec-side formulations

Definitions below this point are written from the specification's words, to
be compared with the code-side definitions above. -/

/-- Spec-side label quoting for performance data: "wrap it in single quotes
and double every embedded single quote" when the label contains `=`, a
space, or a single quote; otherwise pass it through unchanged. -/
def quoteSpec (l : List Char) : List Char :=
  if l.contains '=' || l.contains ' ' || l.contains '\'' then
    '\'' :: (l.flatMap fun c => if c == '\'' then ['\'', '\''] else [c]) ++ ['\'']
  else l

lemma doubleQuotes_eq_flatMap (l : List Char) :
    doubleQuotes l = l.flatMap fun c => if c == '\'' then ['\'', '\''] else [c] := by
  induction l with
  | nil => rfl
  | cons c cs ih =>
    simp only [doubleQuotes, List.flatMap_cons, ih]
    split <;> simp

/-! ## Theorems for the claims -/

/-- **C2.** Adding the three results `(OK, "foo")`, `(CRITICAL, "bar")`,
`(OK, "baz")` in that order (canonical severity constants) and reducing
with no fallback yields severity `CRITICAL` and message
`"bar OK: foo, baz"`. -/
theorem claim_C2_three_results :
    all_responses [⟨OK, some "foo", []⟩, ⟨CRITICAL, some "bar", []⟩, ⟨OK, some "baz", []⟩] none =
      some ⟨CRITICAL, some "bar OK: foo, baz", []⟩ := by decide

/-- **C7.** Reducing an empty collection never errors: it returns the
provided fallback unchanged, and with no fallback it returns a result with
the canonical lowest-exit-code (`OK`) severity and an absent message. -/
theorem claim_C7_empty_reduce :
    (∀ d : Response, all_responses [] (some d) = some d) ∧
      all_responses [] none = some ⟨OK, none, []⟩ ∧
      OK.exit_code < WARNING.exit_code ∧ OK.exit_code < CRITICAL.exit_code ∧
      OK.exit_code < UNKNOWN.exit_code := by
  refine ⟨fun d => rfl, rfl, by decide, by decide, by decide⟩

/-- **C8.** `Status` comparisons are determined by exit code alone: two
values compare equal iff their exit codes are equal (labels and identities
are ignored), and less-than/greater-than follow the integer order of the
exit codes. -/
theorem claim_C8_status_comparisons :
    (∀ a b : Status,
        (Status.eqv a b = true ↔ a.exit_code = b.exit_code) ∧
        (Status.nev a b = true ↔ a.exit_code ≠ b.exit_code) ∧
        (Status.ltv a b = true ↔ a.exit_code < b.exit_code) ∧
        (Status.gtv a b = true ↔ b.exit_code < a.exit_code)) ∧
      Status.eqv ⟨"A", 2, 100⟩ ⟨"B", 2, 101⟩ = true := by
  refine ⟨fun a b => ⟨?_, ?_, ?_, ?_⟩, by decide⟩ <;>
    simp [Status.eqv, Status.nev, Status.ltv, Status.gtv]

/-- **C9.** `response_for_value` classifies: `CRITICAL` iff a critical
range was supplied and the value lies in it; otherwise `WARNING` iff a
warning range was supplied and the value lies in it; otherwise `OK`; the
message is passed through. -/
theorem claim_C9_classification :
    ∀ (w c : Option Range) (v : ℚ) (m : Option String),
      ((response_for_value w c v m).status = CRITICAL ↔
        ∃ r, c = some r ∧ r.in_range v = true) ∧
      ((response_for_value w c v m).status = WARNING ↔
        (¬ ∃ r, c = some r ∧ r.in_range v = true) ∧
          ∃ r, w = some r ∧ r.in_range v = true) ∧
      ((response_for_value w c v m).status = OK ↔
        (¬ ∃ r, c = some r ∧ r.in_range v = true) ∧
          ¬ ∃ r, w = some r ∧ r.in_range v = true) ∧
      (response_for_value w c v m).message = m := by
  intro w c v m
  have hCO : ¬ (CRITICAL = OK) := by decide
  have hCW : ¬ (CRITICAL = WARNING) := by decide
  have hWO : ¬ (WARNING = OK) := by decide
  have hWC : ¬ (WARNING = CRITICAL) := by decide
  have hOC : ¬ (OK = CRITICAL) := by decide
  have hOW : ¬ (OK = WARNING) := by decide
  cases c with
  | none =>
    cases w with
    | none => simp [response_for_value, hOC, hOW]
    | some wr =>
      by_cases hw : wr.in_range v = true
      · simp [response_for_value, hw, hWO, hWC]
      · simp [response_for_value, hw, hOC, hOW]
  | some cr =>
    by_cases hc : cr.in_range v = true
    · cases w <;> simp [response_for_value, hc, hCO, hCW]
    · cases w with
      | none => simp [response_for_value, hc, hOC, hOW]
      | some wr =>
        by_cases hw : wr.in_range v = true
        · simp [response_for_value, hc, hw, hWO, hWC]
        · simp [response_for_value, hc, hw, hOC, hOW]

/-- **C3.** `in_range` polarity: without `@` (exclusive) it is true iff the
value is below the start or above the end; with `@` (inclusive) it is true
iff the value lies between the bounds; in particular `Range("10:20")` is
out at 10 and 20 and in at 9 and 21, and `Range("@10:20")` is in at 10, 15
and 20. -/
theorem claim_C3_in_range :
    (∀ (r : Range) (v : ℚ), r.inclusive = false →
        (r.in_range v = true ↔
          (FVal.lt (.fin v) r.start = true ∨ FVal.lt r.stop (.fin v) = true))) ∧
    (∀ (r : Range) (v : ℚ), r.inclusive = true →
        (r.in_range v = true ↔
          (FVal.le r.start (.fin v) = true ∧ FVal.le (.fin v) r.stop = true))) ∧
    (rangeParse "10:20").map (fun r => r.in_range 10) = .ok false ∧
    (rangeParse "10:20").map (fun r => r.in_range 20) = .ok false ∧
    (rangeParse "10:20").map (fun r => r.in_range 9) = .ok true ∧
    (rangeParse "10:20").map (fun r => r.in_range 21) = .ok true ∧
    (rangeParse "@10:20").map (fun r => r.in_range 10) = .ok true ∧
    (rangeParse "@10:20").map (fun r => r.in_range 15) = .ok true ∧
    (rangeParse "@10:20").map (fun r => r.in_range 20) = .ok true := by
  refine ⟨?_, ?_, by decide, by decide, by decide, by decide, by decide, by decide, by decide⟩ <;>
    · intro r v h
      simp [Range.in_range, h]

/-- Witness for C3 at the concrete range `10:20` and value `5`. -/
theorem claim_C3_witness :
    (Range.mk false (.fin 10) (.fin 20)).in_range 5 = true ↔
      (FVal.lt (.fin 5) (.fin 10) = true ∨ FVal.lt (.fin 20) (.fin 5) = true) :=
  claim_C3_in_range.1 ⟨false, .fin 10, .fin 20⟩ 5 rfl

/-- **C6.** `PerfData` serialization: always
`label=value[uom];[warn];[crit];[min];[max]` with unset fields empty and
all four semicolons present, the label quoted (with embedded quotes
doubled) exactly when it contains `=`, a space or a single quote; e.g.
`foo=7;;;;`, `'with='=7;;;;`, and label `quote'` rendering as `'quote'''`. -/
theorem claim_C6_perf_format :
    (∀ p : PerfData,
        perfStr p = String.mk (quoteSpec p.label.data) ++ "=" ++ p.value ++ orEmpty p.uom ++
          ";" ++ rangeOrEmpty p.warn ++ ";" ++ rangeOrEmpty p.crit ++ ";" ++
          orEmpty p.minval ++ ";" ++ orEmpty p.maxval) ∧
    perfStr ⟨"foo", "7", none, none, none, none, none⟩ = "foo=7;;;;" ∧
    perfStr ⟨"with=", "7", none, none, none, none, none⟩ = "'with='=7;;;;" ∧
    perfStr ⟨"quote'", "7", none, none, none, none, none⟩ = "'quote'''=7;;;;" := by
  refine ⟨fun p => ?_, by decide, by decide, by decide⟩
  simp only [perfStr, quote_if_needed, quoteSpec, doubleQuotes_eq_flatMap]

/-! ### Properties of the stable descending sort -/

lemma mem_insertDesc {y r : Response} {l : List Response} :
    y ∈ insertDesc r l ↔ y = r ∨ y ∈ l := by
  induction l with
  | nil => simp [insertDesc]
  | cons x xs ih =>
    simp only [insertDesc]
    split
    · simp [or_comm, or_assoc, or_left_comm]
    · simp [ih]
      tauto

lemma insertDesc_perm (r : Response) (l : List Response) :
    (insertDesc r l).Perm (r :: l) := by
  induction l with
  | nil => rfl
  | cons x xs ih =>
    simp only [insertDesc]
    split
    · exact List.Perm.refl _
    · exact (List.Perm.cons x ih).trans (List.Perm.swap r x xs)

lemma sortDesc_perm (l : List Response) : (sortDesc l).Perm l := by
  induction l with
  | nil => rfl
  | cons x xs ih => exact (insertDesc_perm x (sortDesc xs)).trans (List.Perm.cons x ih)

lemma mem_sortDesc {y : Response} {l : List Response} : y ∈ sortDesc l ↔ y ∈ l :=
  (sortDesc_perm l).mem_iff

lemma length_sortDesc (l : List Response) : (sortDesc l).length = l.length :=
  (sortDesc_perm l).length_eq

lemma insertDesc_pairwise {r : Response} {l : List Response}
    (h : l.Pairwise fun a b => b.status.exit_code ≤ a.status.exit_code) :
    (insertDesc r l).Pairwise fun a b => b.status.exit_code ≤ a.status.exit_code := by
  induction l with
  | nil => simp [insertDesc]
  | cons x xs ih =>
    rcases List.pairwise_cons.mp h with ⟨hx, hxs⟩
    simp only [insertDesc]
    split
    · rename_i hle
      refine List.pairwise_cons.mpr ⟨?_, h⟩
      intro y hy
      rcases List.mem_cons.mp hy with rfl | hy
      · exact hle
      · exact le_trans (hx y hy) hle
    · rename_i hgt
      refine List.pairwise_cons.mpr ⟨?_, ih hxs⟩
      intro y hy
      rcases mem_insertDesc.mp hy with rfl | hy
      · exact le_of_lt (lt_of_not_le hgt)
      · exact hx y hy

lemma sortDesc_pairwise (l : List Response) :
    (sortDesc l).Pairwise fun a b => b.status.exit_code ≤ a.status.exit_code := by
  induction l with
  | nil => simp [sortDesc]
  | cons x xs ih => exact insertDesc_pairwise ih

lemma insertDesc_filter_eq {r : Response} {c : Int} (l : List Response)
    (h : r.status.exit_code = c) :
    (insertDesc r l).filter (fun x => decide (x.status.exit_code = c)) =
      r :: l.filter (fun x => decide (x.status.exit_code = c)) := by
  induction l with
  | nil => simp [insertDesc, List.filter, h]
  | cons x xs ih =>
    simp only [insertDesc]
    split
    · simp [List.filter, h]
    · rename_i hgt
      have hx : ¬ (x.status.exit_code = c) := by
        intro hc
        exact hgt (le_of_eq (hc.trans h.symm))
      simp [List.filter_cons, hx, ih]

lemma insertDesc_filter_ne {r : Response} {c : Int} (l : List Response)
    (h : ¬ r.status.exit_code = c) :
    (insertDesc r l).filter (fun x => decide (x.status.exit_code = c)) =
      l.filter (fun x => decide (x.status.exit_code = c)) := by
  induction l with
  | nil => simp [insertDesc, List.filter, h]
  | cons x xs ih =>
    simp only [insertDesc]
    split
    · simp [List.filter_cons, h]
    · simp [List.filter_cons, ih]

lemma sortDesc_filter (l : List Response) (c : Int) :
    (sortDesc l).filter (fun x => decide (x.status.exit_code = c)) =
      l.filter (fun x => decide (x.status.exit_code = c)) := by
  induction l with
  | nil => rfl
  | cons x xs ih =>
    by_cases hx : x.status.exit_code = c
    · rw [sortDesc, insertDesc_filter_eq _ hx, ih, List.filter_cons_of_pos (by simp [hx])]
    · rw [sortDesc, insertDesc_filter_ne _ hx, ih, List.filter_cons_of_neg (by simp [hx])]

/-! ### Properties of the message loop -/

/-- Spec-side message fold (identity-based grouping): starting from the
first sorted entry's message, append `" {label}: {message}"` when the
severity is not the same object as the preceding entry's, `", {message}"`
when it is. -/
def specFold (last : Status) (acc : String) : List Response → String
  | [] => acc
  | r :: rest =>
    if pyIs last r.status then specFold last (acc ++ ", " ++ r.message.getD "") rest
    else specFold r.status (acc ++ " " ++ r.status.name ++ ": " ++ r.message.getD "") rest

lemma msgLoop_none_of_mem :
    ∀ (l : List Response) (last : Status) (acc : Option String),
      (∃ r ∈ l, r.message = none) → msgLoop last acc l = none := by
  intro l
  induction l with
  | nil => rintro last acc ⟨r, hr, _⟩; cases hr
  | cons x xs ih =>
    rintro last acc ⟨r, hr, hmsg⟩
    cases acc with
    | none => rfl
    | some a =>
      cases hx : x.message with
      | none => simp [msgLoop, hx]
      | some m =>
        rcases List.mem_cons.mp hr with rfl | hr
        · rw [hx] at hmsg; cases hmsg
        · simp only [msgLoop, hx]
          split <;> exact ih _ _ ⟨r, hr, hmsg⟩

lemma msgLoop_none_left {last : Status} {l : List Response} (h : l ≠ []) :
    msgLoop last none l = none := by
  cases l with
  | nil => cases h rfl
  | cons x xs => rfl

lemma msgLoop_eq_specFold :
    ∀ (l : List Response) (last : Status) (a : String),
      (∀ r ∈ l, r.message ≠ none) →
      msgLoop last (some a) l = some (some (specFold last a l)) := by
  intro l
  induction l with
  | nil => intro last a _; rfl
  | cons x xs ih =>
    intro last a h
    have hx : x.message ≠ none := h x (List.mem_cons_self x xs)
    rcases hm : x.message with _ | m
    · exact absurd hm hx
    have hxs : ∀ r ∈ xs, r.message ≠ none := fun r hr => h r (List.mem_cons_of_mem x hr)
    simp only [msgLoop, specFold, hm, Option.getD_some]
    split <;> exact ih _ _ hxs

/-- **C10.** On a collection of two or more results, if any message is
absent (`None`) the reduction raises `TypeError` (modelled as `none`)
instead of returning a result; it returns normally only when every
message is a string. -/
theorem claim_C10_none_message :
    ∀ (l : List Response) (d : Option Response), 2 ≤ l.length →
      ((∃ r ∈ l, r.message = none) → all_responses l d = none) ∧
      (all_responses l d ≠ none → ∀ r ∈ l, r.message ≠ none) := by
  intro l d hlen
  have main : (∃ r ∈ l, r.message = none) → all_responses l d = none := by
    rintro ⟨r, hr, hmsg⟩
    cases l with
    | nil => cases hr
    | cons x xs =>
      rcases hs : sortDesc (x :: xs) with _ | ⟨w, rest⟩
      · have := length_sortDesc (x :: xs)
        rw [hs] at this
        simp at this
      · have hrest : rest ≠ [] := by
          intro hnil
          have hlen2 := length_sortDesc (x :: xs)
          rw [hs, hnil] at hlen2
          simp only [List.length_cons, List.length_singleton, List.length_nil] at hlen hlen2
          omega
        have hmem : r ∈ w :: rest := by
          rw [← hs]
          exact mem_sortDesc.mpr hr
        simp only [all_responses, hs]
        rcases List.mem_cons.mp hmem with rfl | hmem
        · rw [hmsg, msgLoop_none_left hrest]
        · rw [msgLoop_none_of_mem rest w.status w.message ⟨r, hmem, hmsg⟩]
  refine ⟨main, fun hne r hr hmsg => hne (main ⟨r, hr, hmsg⟩)⟩

/-- Witness for C10 at a concrete two-element collection with one absent
message. -/
theorem claim_C10_witness :
    all_responses [⟨OK, none, []⟩, ⟨OK, some "x", []⟩] none = none :=
  (claim_C10_none_message [⟨OK, none, []⟩, ⟨OK, some "x", []⟩] none (by decide)).1
    ⟨⟨OK, none, []⟩, by simp, rfl⟩

/-- **C1 (counterexample).** The claim predicts grouping by severity
*comparison* (`__eq__`, i.e. exit codes): at two results whose `Status`
objects are distinct allocations with equal exit codes, the sorted order is
the insertion order and the second severity compares equal to the first,
so the claim requires the message `"a, b"`; the code groups by object
identity (`is not`) and produces `"a CRIT: b"` instead. -/
theorem claim_C1_counterexample :
    sortDesc [⟨⟨"CRIT", 2, 100⟩, some "a", []⟩, ⟨⟨"CRIT", 2, 101⟩, some "b", []⟩] =
        [⟨⟨"CRIT", 2, 100⟩, some "a", []⟩, ⟨⟨"CRIT", 2, 101⟩, some "b", []⟩] ∧
      Status.eqv ⟨"CRIT", 2, 100⟩ ⟨"CRIT", 2, 101⟩ = true ∧
      all_responses [⟨⟨"CRIT", 2, 100⟩, some "a", []⟩, ⟨⟨"CRIT", 2, 101⟩, some "b", []⟩] none =
        some ⟨⟨"CRIT", 2, 100⟩, some "a CRIT: b", []⟩ ∧
      (some "a CRIT: b" : Option String) ≠ some "a, b" := by decide

/-- **C1 (amended).** For every non-empty collection whose messages are all
present, `all_responses` sorts stably by severity descending (the returned
list is pairwise descending in exit code and preserves, for every exit
code, the original order of the entries carrying it), returns the first
sorted entry's severity, and builds the message starting from the first
sorted entry's message, appending `" {label}: {message}"` exactly when an
entry's severity is **not the same object** as the immediately preceding
entry's severity and `", {message}"` when it is the same object. -/
theorem claim_C1_amended :
    ∀ (l : List Response) (d : Option Response), l ≠ [] → (∀ r ∈ l, r.message ≠ none) →
      ∃ (w : Response) (rest : List Response),
        (w :: rest).Pairwise (fun a b => b.status.exit_code ≤ a.status.exit_code) ∧
        (∀ c : Int, (w :: rest).filter (fun r => decide (r.status.exit_code = c)) =
          l.filter (fun r => decide (r.status.exit_code = c))) ∧
        all_responses l d =
          some ⟨w.status, some (specFold w.status (w.message.getD "") rest), []⟩ := by
  intro l d hne hmsg
  rcases hs : sortDesc l with _ | ⟨w, rest⟩
  · have := length_sortDesc l
    rw [hs] at this
    cases l with
    | nil => cases hne rfl
    | cons x xs => simp at this
  · refine ⟨w, rest, ?_, ?_, ?_⟩
    · rw [← hs]; exact sortDesc_pairwise l
    · intro c; rw [← hs]; exact sortDesc_filter l c
    · have hwmem : w ∈ l := mem_sortDesc.mp (hs ▸ List.mem_cons_self w rest)
      rcases hw : w.message with _ | a
      · exact absurd hw (hmsg w hwmem)
      · have hrest : ∀ r ∈ rest, r.message ≠ none := by
          intro r hr
          exact hmsg r (mem_sortDesc.mp (hs ▸ List.mem_cons_of_mem w hr))
        cases l with
        | nil => cases hne rfl
        | cons x xs =>
          simp only [all_responses, hs, hw, msgLoop_eq_specFold rest w.status a hrest,
            Option.getD_some]

/-- Witness for C1 (amended) at the concrete collection
`[(CRITICAL, "bar"), (OK, "foo")]` with no fallback. -/
theorem claim_C1_witness :
    ∃ (w : Response) (rest : List Response),
      (w :: rest).Pairwise (fun a b => b.status.exit_code ≤ a.status.exit_code) ∧
      (∀ c : Int, (w :: rest).filter (fun r => decide (r.status.exit_code = c)) =
        ([⟨CRITICAL, some "bar", []⟩, ⟨OK, some "foo", []⟩] : List Response).filter
          (fun r => decide (r.status.exit_code = c))) ∧
      all_responses [⟨CRITICAL, some "bar", []⟩, ⟨OK, some "foo", []⟩] none =
        some ⟨w.status, some (specFold w.status (w.message.getD "") rest), []⟩ :=
  claim_C1_amended [⟨CRITICAL, some "bar", []⟩, ⟨OK, some "foo", []⟩] none (by simp)
    (by simp)

/-! ### Claim C5: characterization of `Range` construction -/

/-- The input after stripping and removing a leading `@` (the string the
code splits on `:`). -/
def rpBody (s : String) : List Char :=
  let v := trimChars s.data
  if v.head? == some '@' then v.tail else v

/-- The `:`-separated parts of the (stripped, `@`-less) input. -/
def rpParts (s : String) : List (List Char) := splitOnChar ':' (rpBody s)

/-- The start part: with a single part the start defaults to `"0"`. -/
def rpP0 (s : String) : List Char :=
  match rpParts s with
  | [_] => ['0']
  | p0 :: _ :: _ => p0
  | [] => []

/-- The end part: a single part is the end. -/
def rpP1 (s : String) : List Char :=
  match rpParts s with
  | [p] => p
  | _ :: p1 :: _ => p1
  | [] => []

/-- Spec-side failure condition for `Range` construction: trimmed input
empty, more than two `:`-parts, a bound (other than `~` start, `~`/empty
end) that does not parse as a float, or start above end. -/
def claimFail (s : String) : Prop :=
  trimChars s.data = [] ∨ 2 < (rpParts s).length ∨ bStart (rpP0 s) = none ∨
    bEnd (rpP1 s) = none ∨
    ∃ a b, bStart (rpP0 s) = some a ∧ bEnd (rpP1 s) = some b ∧ FVal.lt b a = true

lemma splitOnChar_ne_nil (sep : Char) (l : List Char) : splitOnChar sep l ≠ [] := by
  cases l with
  | nil => simp [splitOnChar]
  | cons c rest =>
    simp only [splitOnChar]
    rcases h : splitOnChar sep rest with _ | ⟨part, parts⟩
    · simp
    · dsimp only
      split <;> simp

lemma rangeParse_eq (s : String) (h : ¬ trimChars s.data = []) :
    rangeParse s =
      match rpParts s with
      | [p] => rangeBounds ((trimChars s.data).head? == some '@') ['0'] p
      | [p0, p1] => rangeBounds ((trimChars s.data).head? == some '@') p0 p1
      | _ => .error "Range cannot have more than two parts." := by
  unfold rangeParse rangeParseChars
  simp only [rpParts, rpBody, List.isEmpty_iff, h, if_false]

lemma rangeBounds_error_iff (inc : Bool) (p0 p1 : List Char) :
    (∃ e, rangeBounds inc p0 p1 = .error e) ↔
      (bStart p0 = none ∨ bEnd p1 = none ∨
        ∃ a b, bStart p0 = some a ∧ bEnd p1 = some b ∧ FVal.lt b a = true) := by
  unfold rangeBounds
  rcases h0 : bStart p0 with _ | a
  · simp
  · rcases h1 : bEnd p1 with _ | b
    · simp
    · by_cases hlt : FVal.lt b a = true
      · simp only [hlt, if_true]
        constructor
        · intro _; exact Or.inr (Or.inr ⟨a, b, rfl, rfl, hlt⟩)
        · intro _; exact ⟨_, rfl⟩
      · simp only [hlt, if_false]
        constructor
        · rintro ⟨e, he⟩; cases he
        · rintro (hc | hc | ⟨a2, b2, ha2, hb2, hlt2⟩)
          · cases hc
          · cases hc
          · cases ha2; cases hb2; exact absurd hlt2 hlt

lemma rangeBounds_ok (inc : Bool) (p0 p1 : List Char) (r : Range)
    (h : rangeBounds inc p0 p1 = .ok r) :
    r.inclusive = inc ∧ some r.start = bStart p0 ∧ some r.stop = bEnd p1 := by
  unfold rangeBounds at h
  rcases h0 : bStart p0 with _ | a <;> rw [h0] at h
  · cases h
  · rcases h1 : bEnd p1 with _ | b <;> rw [h1] at h <;> dsimp only at h
    · cases h
    · by_cases hlt : FVal.lt b a = true
      · rw [if_pos hlt] at h; cases h
      · rw [if_neg hlt] at h
        cases h
        exact ⟨rfl, rfl, rfl⟩

/-- **C5.** `Range` construction fails (with `RangeFormatError`, named
`RangeValueError` in the code) exactly when the trimmed input is empty,
there are more than two `:`-parts, a bound other than `~` start or
`~`/empty end does not parse as a float, or start is above end; on success
the inclusive flag records a leading `@`, a single part is the end with the
start defaulting to `0`, `~` start is negative infinity, and `~`/empty end
is positive infinity. -/
theorem claim_C5_parse_characterization :
    ∀ s : String,
      ((∃ e, rangeParse s = .error e) ↔ claimFail s) ∧
      (∀ r, rangeParse s = .ok r →
        r.inclusive = ((trimChars s.data).head? == some '@') ∧
        some r.start = bStart (rpP0 s) ∧ some r.stop = bEnd (rpP1 s)) := by
  intro s
  by_cases hv : trimChars s.data = []
  · have herr : rangeParse s = .error "Range must not be empty" := by
      unfold rangeParse rangeParseChars
      simp [hv]
    constructor
    · constructor
      · intro _; exact Or.inl hv
      · intro _; exact ⟨_, herr⟩
    · intro r hr
      rw [herr] at hr
      cases hr
  · have heq := rangeParse_eq s hv
    rcases hp : rpParts s with _ | ⟨p0, rest⟩
    · exact absurd hp (splitOnChar_ne_nil ':' (rpBody s))
    rcases rest with _ | ⟨p1, rest2⟩
    · -- one part: the start defaults to "0"
      rw [hp] at heq
      dsimp only at heq
      have h0 : rpP0 s = ['0'] := by simp [rpP0, hp]
      have h1 : rpP1 s = p0 := by simp [rpP1, hp]
      constructor
      · rw [heq, rangeBounds_error_iff]
        unfold claimFail
        rw [h0, h1, hp]
        simp [hv]
      · intro r hr
        rw [heq] at hr
        rw [h0, h1]
        exact rangeBounds_ok _ _ _ _ hr
    rcases rest2 with _ | ⟨p2, rest3⟩
    · -- two parts
      rw [hp] at heq
      dsimp only at heq
      have h0 : rpP0 s = p0 := by simp [rpP0, hp]
      have h1 : rpP1 s = p1 := by simp [rpP1, hp]
      constructor
      · rw [heq, rangeBounds_error_iff]
        unfold claimFail
        rw [h0, h1, hp]
        simp [hv]
      · intro r hr
        rw [heq] at hr
        rw [h0, h1]
        exact rangeBounds_ok _ _ _ _ hr
    · -- more than two parts
      rw [hp] at heq
      dsimp only at heq
      constructor
      · constructor
        · intro _
          refine Or.inr (Or.inl ?_)
          rw [hp]
          simp only [List.length_cons]
          omega
        · intro _
          exact ⟨_, heq⟩
      · intro r hr
        rw [heq] at hr
        cases hr

/-- Witness for C5 at the concrete input `"10:20"`. -/
theorem claim_C5_witness :
    (Range.mk false (.fin 10) (.fin 20)).inclusive =
        ((trimChars "10:20".data).head? == some '@') ∧
      some (Range.mk false (.fin 10) (.fin 20)).start = bStart (rpP0 "10:20") ∧
      some (Range.mk false (.fin 10) (.fin 20)).stop = bEnd (rpP1 "10:20") :=
  (claim_C5_parse_characterization "10:20").2 ⟨false, .fin 10, .fin 20⟩ (by decide)

/-! ### Claim C4: round-trip infrastructure — digits -/

lemma charDigit?_digitChar {d : Nat} (h : d < 10) :
    charDigit? (Nat.digitChar d) = some d := by
  interval_cases d <;> decide

lemma digitChar_isDigit {d : Nat} (h : d < 10) : (Nat.digitChar d).isDigit = true := by
  interval_cases d <;> decide

lemma ofDigits_replicate_zero (p : Nat) : Nat.ofDigits 10 (List.replicate p 0) = 0 := by
  induction p with
  | zero => rfl
  | succ n ih => simp [List.replicate, Nat.ofDigits_cons, ih]

lemma digitsValGo_map :
    ∀ (ds : List Nat) (acc : Nat), (∀ d ∈ ds, d < 10) →
      digitsValGo acc (ds.map Nat.digitChar) =
        some (acc * 10 ^ ds.length + Nat.ofDigits 10 ds.reverse) := by
  intro ds
  induction ds with
  | nil => intro acc _; simp [digitsValGo, Nat.ofDigits_nil]
  | cons d ds ih =>
    intro acc h
    have hd : d < 10 := h d (List.mem_cons_self d ds)
    have hds : ∀ x ∈ ds, x < 10 := fun x hx => h x (List.mem_cons_of_mem d hx)
    simp only [List.map_cons, digitsValGo, charDigit?_digitChar hd, ih (acc * 10 + d) hds,
      List.reverse_cons, Nat.ofDigits_append, List.length_cons, List.length_reverse,
      Nat.ofDigits_singleton]
    congr 1
    ring

lemma natDigitsAux_lt : ∀ (fuel n d : Nat), d ∈ natDigitsAux fuel n → d < 10 := by
  intro fuel
  induction fuel with
  | zero => intro n d h; cases h
  | succ f ih =>
    intro n d h
    simp only [natDigitsAux] at h
    split at h
    · cases h
    · rcases List.mem_cons.mp h with rfl | h
      · exact Nat.mod_lt n (by norm_num)
      · exact ih _ _ h

lemma ofDigits_natDigitsAux : ∀ (fuel n : Nat), n ≤ fuel →
    Nat.ofDigits 10 (natDigitsAux fuel n) = n := by
  intro fuel
  induction fuel with
  | zero => intro n h; interval_cases n; rfl
  | succ f ih =>
    intro n h
    simp only [natDigitsAux]
    split
    · rename_i h0; simp [h0, Nat.ofDigits_nil]
    · rename_i h0
      have hlt : n / 10 < n := Nat.div_lt_self (Nat.pos_of_ne_zero h0) (by norm_num)
      rw [Nat.ofDigits_cons, ih (n / 10) (by omega)]
      omega

lemma natDigits_lt {n d : Nat} (h : d ∈ natDigits n) : d < 10 :=
  natDigitsAux_lt n n d h

lemma ofDigits_natDigits (n : Nat) : Nat.ofDigits 10 (natDigits n) = n :=
  ofDigits_natDigitsAux n n le_rfl

lemma natDigits_ne_nil {n : Nat} (h : n ≠ 0) : natDigits n ≠ [] := by
  cases n with
  | zero => cases h rfl
  | succ m => simp [natDigits, natDigitsAux]

lemma digitsValGo_natChars (n : Nat) : digitsValGo 0 (natChars n) = some n := by
  by_cases h0 : n = 0
  · subst h0; decide
  · rw [natChars, if_neg h0,
      digitsValGo_map _ 0 (fun d hd => natDigits_lt (List.mem_reverse.mp hd))]
    simp [List.reverse_reverse, ofDigits_natDigits]

lemma char_ne_of_isDigit {c : Char} (h : c.isDigit = true) (d : Char)
    (hd : d.isDigit = false) : c ≠ d := by
  intro he
  rw [he, hd] at h
  cases h

lemma natChars_isDigit {n : Nat} : ∀ c ∈ natChars n, c.isDigit = true := by
  intro c hc
  by_cases h0 : n = 0
  · subst h0
    rw [show natChars 0 = ['0'] from rfl, List.mem_singleton] at hc
    subst hc; decide
  · rw [natChars, if_neg h0] at hc
    rcases List.mem_map.mp hc with ⟨d, hd, rfl⟩
    exact digitChar_isDigit (natDigits_lt (List.mem_reverse.mp hd))

lemma natChars_ne_nil (n : Nat) : natChars n ≠ [] := by
  by_cases h0 : n = 0
  · subst h0; decide
  · rw [natChars, if_neg h0]
    simp [natDigits_ne_nil h0]

lemma intChars_class {m : Int} : ∀ c ∈ intChars m, c.isDigit = true ∨ c = '-' := by
  intro c hc
  rw [intChars] at hc
  split at hc
  · rcases List.mem_cons.mp hc with rfl | hc
    · exact Or.inr rfl
    · exact Or.inl (natChars_isDigit c hc)
  · exact Or.inl (natChars_isDigit c hc)

lemma decChars_class {m : Int} {k : Nat} :
    ∀ c ∈ decChars m k, c.isDigit = true ∨ c = '-' ∨ c = '.' := by
  intro c hc
  simp only [decChars, List.append_assoc, List.mem_append, List.mem_cons] at hc
  rcases hc with hc | hc | hc
  · split at hc
    · rcases List.mem_singleton.mp hc with rfl
      exact Or.inr (Or.inl rfl)
    · cases hc
  · rcases List.mem_map.mp hc with ⟨d, hd, rfl⟩
    refine Or.inl (digitChar_isDigit ?_)
    have hd2 := List.mem_reverse.mp hd
    rcases List.mem_append.mp (List.mem_of_mem_drop hd2) with h | h
    · exact natDigits_lt h
    · rcases List.eq_of_mem_replicate h with rfl; norm_num
  · rcases hc with rfl | hc
    · exact Or.inr (Or.inr rfl)
    · rcases List.mem_map.mp hc with ⟨d, hd, rfl⟩
      refine Or.inl (digitChar_isDigit ?_)
      have hd2 := List.mem_reverse.mp hd
      rcases List.mem_append.mp (List.mem_of_mem_take hd2) with h | h
      · exact natDigits_lt h
      · rcases List.eq_of_mem_replicate h with rfl; norm_num

lemma finChars_class {q : ℚ} :
    ∀ c ∈ finChars q, c.isDigit = true ∨ c = '-' ∨ c = '.' := by
  intro c hc
  rw [finChars] at hc
  split at hc
  · rcases intChars_class c hc with h | h
    · exact Or.inl h
    · exact Or.inr (Or.inl h)
  · rcases hde : decExp q with _ | k <;> rw [hde] at hc
    · rcases intChars_class c hc with h | h
      · exact Or.inl h
      · exact Or.inr (Or.inl h)
    · exact decChars_class c hc
/-! ### Claim C4: round-trip infrastructure — splitting, trimming, numerals -/

lemma splitOnChar_of_not_mem {sep : Char} :
    ∀ {l : List Char}, (∀ c ∈ l, c ≠ sep) → splitOnChar sep l = [l] := by
  intro l
  induction l with
  | nil => intro _; rfl
  | cons c cs ih =>
    intro h
    have hc : c ≠ sep := h c (List.mem_cons_self c cs)
    simp only [splitOnChar, ih (fun x hx => h x (List.mem_cons_of_mem c hx))]
    simp [hc]

lemma splitOnChar_append {sep : Char} :
    ∀ {a : List Char} (b : List Char), (∀ c ∈ a, c ≠ sep) →
      splitOnChar sep (a ++ sep :: b) = a :: splitOnChar sep b := by
  intro a
  induction a with
  | nil =>
    intro b _
    rcases h : splitOnChar sep b with _ | ⟨part, parts⟩
    · exact absurd h (splitOnChar_ne_nil sep b)
    · simp [splitOnChar, h]
  | cons c cs ih =>
    intro b h
    have hc : c ≠ sep := h c (List.mem_cons_self c cs)
    have hcs := ih b (fun x hx => h x (List.mem_cons_of_mem c hx))
    simp only [List.cons_append, splitOnChar, List.append_eq]
    rw [hcs]
    simp [hc]

lemma dropWhile_eq_self_of {p : Char → Bool} {l : List Char}
    (h : ∀ c ∈ l, p c = false) : l.dropWhile p = l := by
  cases l with
  | nil => rfl
  | cons c cs =>
    rw [List.dropWhile_cons, h c (List.mem_cons_self c cs)]
    simp

lemma trimChars_eq_self {l : List Char} (h : ∀ c ∈ l, pySpace c = false) :
    trimChars l = l := by
  rw [trimChars, dropWhile_eq_self_of h,
    dropWhile_eq_self_of (fun c hc => h c (List.mem_reverse.mp hc)), List.reverse_reverse]

lemma pySpace_eq_false_of_class {c : Char}
    (h : c.isDigit = true ∨ c = '-' ∨ c = '.' ∨ c = ':' ∨ c = '@' ∨ c = '~') :
    pySpace c = false := by
  rcases h with h | rfl | rfl | rfl | rfl | rfl
  · simp only [pySpace, Bool.or_eq_false_iff, beq_eq_false_iff_ne]
    exact ⟨⟨⟨⟨⟨char_ne_of_isDigit h ' ' (by decide), char_ne_of_isDigit h '\t' (by decide)⟩,
      char_ne_of_isDigit h '\n' (by decide)⟩, char_ne_of_isDigit h '\r' (by decide)⟩,
      char_ne_of_isDigit h '\x0b' (by decide)⟩, char_ne_of_isDigit h '\x0c' (by decide)⟩
  all_goals decide

/-! ### Claim C4: round-trip infrastructure — parsing printed numerals -/

lemma parseFloat_not_sign {l : List Char} (h1 : l.head? ≠ some '-')
    (h2 : l.head? ≠ some '+') : parseFloat l = parseUFloat l := by
  cases l with
  | nil => rfl
  | cons c cs =>
    simp only [List.head?, ne_eq, Option.some.injEq] at h1 h2
    unfold parseFloat
    split
    · rename_i heq
      cases heq
      exact absurd rfl h1
    · rename_i heq
      cases heq
      exact absurd rfl h2
    · rfl

lemma parseUFloat_natChars (n : Nat) : parseUFloat (natChars n) = some ((n : ℕ) : ℚ) := by
  have hnodot : ∀ c ∈ natChars n, c ≠ '.' :=
    fun c hc => char_ne_of_isDigit (natChars_isDigit c hc) '.' (by decide)
  rw [parseUFloat, splitOnChar_of_not_mem hnodot]
  dsimp only
  rw [if_neg (by simp [List.isEmpty_iff, natChars_ne_nil n]), digitsValGo_natChars]

lemma parseFloat_natChars (n : Nat) : parseFloat (natChars n) = some ((n : ℕ) : ℚ) := by
  have hhead : ∀ d, (natChars n).head? = some d → d.isDigit = true := by
    intro d hd
    rcases hn : natChars n with _ | ⟨c, cs⟩
    · rw [hn] at hd; cases hd
    · rw [hn] at hd
      cases hd
      exact natChars_isDigit d (hn ▸ List.mem_cons_self d cs)
  have h1 : (natChars n).head? ≠ some '-' := by
    intro h
    exact absurd (hhead _ h) (by decide)
  have h2 : (natChars n).head? ≠ some '+' := by
    intro h
    exact absurd (hhead _ h) (by decide)
  rw [parseFloat_not_sign h1 h2, parseUFloat_natChars]

lemma parseFloat_intChars (m : Int) : parseFloat (intChars m) = some ((m : ℤ) : ℚ) := by
  by_cases hm : m < 0
  · rw [intChars, if_pos hm]
    show (parseUFloat (natChars m.natAbs)).map _ = _
    rw [parseUFloat_natChars, Option.map_some']
    congr 1
    rw [Int.cast_natAbs, abs_of_neg hm]
    push_cast
    ring
  · rw [intChars, if_neg hm, parseFloat_natChars]
    congr 1
    rw [Int.cast_natAbs, abs_of_nonneg (not_lt.mp hm)]

/-! ### Claim C4: round-trip infrastructure — decimal rationals -/

lemma den_mul_pow_eq_one_iff (q : ℚ) (k : Nat) :
    (q * (10 : ℚ) ^ k).den = 1 ↔ q.den ∣ 10 ^ k := by
  constructor
  · intro h
    have hint : (((q * 10 ^ k).num : ℤ) : ℚ) = q * 10 ^ k := by
      have hq := Rat.num_div_den (q * 10 ^ k)
      rw [h] at hq
      simpa using hq
    have hq : q = (((q * 10 ^ k).num : ℤ) : ℚ) / (((10 ^ k : ℕ) : ℤ) : ℚ) := by
      rw [hint]
      have h10 : ((10 : ℚ)) ^ k ≠ 0 := pow_ne_zero _ (by norm_num)
      push_cast
      field_simp
    rw [← Rat.divInt_eq_div] at hq
    have hdvd := Rat.den_dvd (q * 10 ^ k).num ((10 ^ k : ℕ) : ℤ)
    rw [← hq] at hdvd
    exact_mod_cast hdvd
  · rintro ⟨c, hc⟩
    have hden : ((q.den : ℚ)) ≠ 0 := by
      exact_mod_cast q.den_nz
    have hkey : q * (10 : ℚ) ^ k = ((q.num * c : ℤ) : ℚ) := by
      have hcast : ((10 : ℚ)) ^ k = ((q.den : ℚ)) * ((c : ℚ)) := by
        have h1 : ((10 ^ k : ℕ) : ℚ) = ((q.den * c : ℕ) : ℚ) := by
          rw [hc]
        push_cast at h1
        linarith
      calc q * (10 : ℚ) ^ k
          = ((q.num : ℚ) / (q.den : ℚ)) * ((q.den : ℚ) * (c : ℚ)) := by
            rw [Rat.num_div_den, ← hcast]
        _ = (q.num : ℚ) * (c : ℚ) := by field_simp; ring
        _ = ((q.num * c : ℤ) : ℚ) := by push_cast; ring
    rw [hkey, Rat.den_intCast]

lemma dvd_ten_pow_self {n l : Nat} (h : n ∣ 10 ^ l) : n ∣ 10 ^ n := by
  have h2 : (10 : ℕ) ^ l = 2 ^ l * 5 ^ l := by rw [← Nat.mul_pow]
  rw [h2] at h
  rcases Nat.dvd_mul.mp h with ⟨d2, d5, h2d, h5d, rfl⟩
  rcases (Nat.dvd_prime_pow Nat.prime_two).mp h2d with ⟨a, _, rfl⟩
  rcases (Nat.dvd_prime_pow (by norm_num : Nat.Prime 5)).mp h5d with ⟨b, _, rfl⟩
  have ha : a ≤ 2 ^ a * 5 ^ b :=
    le_trans (le_of_lt (Nat.lt_two_pow a)) (Nat.le_mul_of_pos_right _ (pow_pos (by norm_num) b))
  have hb : b ≤ 2 ^ a * 5 ^ b :=
    le_trans (le_of_lt (Nat.lt_pow_self (by norm_num) b)) (Nat.le_mul_of_pos_left _ (pow_pos (by norm_num) a))
  have h3 : (10 : ℕ) ^ (2 ^ a * 5 ^ b) = 2 ^ (2 ^ a * 5 ^ b) * 5 ^ (2 ^ a * 5 ^ b) := by
    rw [← Nat.mul_pow]
  rw [h3]
  exact mul_dvd_mul (pow_dvd_pow 2 ha) (pow_dvd_pow 5 hb)

/-- A rational is decimal when some power of ten clears its denominator;
every value `parseFloat` produces is decimal. -/
def decimalQ (q : ℚ) : Prop := ∃ j, (q * (10 : ℚ) ^ j).den = 1

lemma decExp_isSome {q : ℚ} (h : decimalQ q) : ∃ k, decExp q = some k := by
  rcases h with ⟨j, hj⟩
  have hdvd : q.den ∣ 10 ^ j := (den_mul_pow_eq_one_iff q j).mp hj
  have hdvd2 : q.den ∣ 10 ^ q.den := dvd_ten_pow_self hdvd
  have hden : (q * (10 : ℚ) ^ q.den).den = 1 := (den_mul_pow_eq_one_iff q q.den).mpr hdvd2
  have hs : (List.find? (fun k => (q * (10 : ℚ) ^ k).den == 1) (List.range (q.den + 1))).isSome :=
    List.find?_isSome.mpr ⟨q.den, List.mem_range.mpr (Nat.lt_succ_self _), by simp [hden]⟩
  rcases Option.isSome_iff_exists.mp hs with ⟨k, hk⟩
  exact ⟨k, hk⟩

lemma decExp_spec {q : ℚ} {k : Nat} (h : decExp q = some k) :
    (q * (10 : ℚ) ^ k).den = 1 := by
  have := List.find?_some h
  simpa using this

lemma parseUFloat_dec {l : List Char} {q : ℚ} (h : parseUFloat l = some q) :
    decimalQ q := by
  rw [parseUFloat] at h
  split at h
  · split at h
    · cases h
    · rcases hd : digitsValGo 0 _ with _ | n <;> rw [hd] at h
      · cases h
      · cases h
        exact ⟨0, by simp⟩
  · split at h
    · cases h
    · rename_i a b _ _
      rcases hda : digitsValGo 0 a with _ | na <;> rw [hda] at h
      · cases h
      · rcases hdb : digitsValGo 0 b with _ | nb <;> rw [hdb] at h
        · cases h
        · cases h
          refine ⟨b.length, ?_⟩
          have h10 : ((10 : ℚ)) ^ b.length ≠ 0 := pow_ne_zero _ (by norm_num)
          have hkey : ((na : ℚ) + (nb : ℚ) / (10 : ℚ) ^ b.length) * (10 : ℚ) ^ b.length =
              ((na * 10 ^ b.length + nb : ℕ) : ℚ) := by
            push_cast
            field_simp
          rw [hkey, Rat.den_natCast]
  · cases h

lemma parseFloat_dec {l : List Char} {q : ℚ} (h : parseFloat l = some q) :
    decimalQ q := by
  unfold parseFloat at h
  split at h
  · rcases hu : parseUFloat _ with _ | q2 <;> rw [hu] at h
    · cases h
    · simp only [Option.map_some'] at h
      cases h
      rcases parseUFloat_dec hu with ⟨j, hj⟩
      refine ⟨j, ?_⟩
      have : -q2 * (10 : ℚ) ^ j = -(q2 * (10 : ℚ) ^ j) := by ring
      rw [this]
      exact hj
  · exact parseUFloat_dec h
  · exact parseUFloat_dec h

/-! ### Claim C4: round-trip infrastructure — printing decimals -/

lemma parseUFloat_dot (ip frac : List Nat)
    (hip : ∀ d ∈ ip, d < 10) (hfrac : ∀ d ∈ frac, d < 10) (hipne : ip ≠ []) :
    parseUFloat ((ip.map Nat.digitChar) ++ '.' :: (frac.map Nat.digitChar)) =
      some (((Nat.ofDigits 10 ip.reverse : ℕ) : ℚ) +
        ((Nat.ofDigits 10 frac.reverse : ℕ) : ℚ) / (10 : ℚ) ^ frac.length) := by
  have hipdot : ∀ c ∈ ip.map Nat.digitChar, c ≠ '.' := by
    intro c hc
    rcases List.mem_map.mp hc with ⟨d, hd, rfl⟩
    exact char_ne_of_isDigit (digitChar_isDigit (hip d hd)) '.' (by decide)
  have hfracdot : ∀ c ∈ frac.map Nat.digitChar, c ≠ '.' := by
    intro c hc
    rcases List.mem_map.mp hc with ⟨d, hd, rfl⟩
    exact char_ne_of_isDigit (digitChar_isDigit (hfrac d hd)) '.' (by decide)
  rw [parseUFloat, splitOnChar_append _ hipdot, splitOnChar_of_not_mem hfracdot]
  dsimp only
  rw [if_neg (by simp [List.isEmpty_iff, hipne])]
  rw [digitsValGo_map ip 0 hip, digitsValGo_map frac 0 hfrac]
  dsimp only
  rw [List.length_map]
  norm_num

lemma parseFloat_decChars (m : Int) (k : Nat) :
    parseFloat (decChars m k) = some ((m : ℚ) / (10 : ℚ) ^ k) := by
  have hds : ∀ d ∈ natDigits m.natAbs ++ List.replicate (k + 1 - (natDigits m.natAbs).length) 0,
      d < 10 := by
    intro d hd
    rcases List.mem_append.mp hd with h | h
    · exact natDigits_lt h
    · rcases List.eq_of_mem_replicate h with rfl; norm_num
  set ds := natDigits m.natAbs ++ List.replicate (k + 1 - (natDigits m.natAbs).length) 0 with hdsdef
  have hlen : k + 1 ≤ ds.length := by
    rw [hdsdef, List.length_append, List.length_replicate]
    omega
  have hip : ∀ d ∈ (ds.drop k).reverse, d < 10 :=
    fun d hd => hds d (List.mem_of_mem_drop (List.mem_reverse.mp hd))
  have hfrac : ∀ d ∈ (ds.take k).reverse, d < 10 :=
    fun d hd => hds d (List.mem_of_mem_take (List.mem_reverse.mp hd))
  have hipne : (ds.drop k).reverse ≠ [] := by
    simp only [ne_eq, List.reverse_eq_nil_iff, List.drop_eq_nil_iff]
    omega
  have hval : Nat.ofDigits 10 (ds.take k) + 10 ^ k * Nat.ofDigits 10 (ds.drop k) =
      m.natAbs := by
    have htd := List.take_append_drop k ds
    have h1 : Nat.ofDigits 10 ds = Nat.ofDigits 10 (ds.take k) +
        10 ^ k * Nat.ofDigits 10 (ds.drop k) := by
      conv_lhs => rw [← htd]
      rw [Nat.ofDigits_append, List.length_take]
      have hmin : min k ds.length = k := by omega
      rw [hmin]
    have h2 : Nat.ofDigits 10 ds = m.natAbs := by
      rw [hdsdef, Nat.ofDigits_append, ofDigits_natDigits, ofDigits_replicate_zero]
      ring
    omega
  have hfraclen : (ds.take k).length = k := by
    rw [List.length_take]
    omega
  have hufloat : parseUFloat (((ds.drop k).reverse.map Nat.digitChar) ++
      '.' :: ((ds.take k).reverse.map Nat.digitChar)) =
      some ((m.natAbs : ℚ) / (10 : ℚ) ^ k) := by
    rw [parseUFloat_dot _ _ hip hfrac hipne]
    congr 1
    rw [List.reverse_reverse, List.reverse_reverse, List.length_reverse, hfraclen]
    have hcast : ((Nat.ofDigits 10 (ds.take k) : ℕ) : ℚ) +
        (10 : ℚ) ^ k * ((Nat.ofDigits 10 (ds.drop k) : ℕ) : ℚ) = ((m.natAbs : ℕ) : ℚ) := by
      exact_mod_cast hval
    have h10 : ((10 : ℚ)) ^ k ≠ 0 := pow_ne_zero _ (by norm_num)
    field_simp
    linarith [hcast]
  by_cases hm : m < 0
  · have hdc : decChars m k = '-' :: (((ds.drop k).reverse.map Nat.digitChar) ++
        '.' :: ((ds.take k).reverse.map Nat.digitChar)) := by
      simp only [decChars, if_pos hm, ← hdsdef]
      simp
    rw [hdc]
    show (parseUFloat _).map _ = _
    rw [hufloat]
    simp only [Option.map_some']
    congr 1
    rw [Int.cast_natAbs, abs_of_neg hm]
    push_cast
    ring
  · have hdc : decChars m k = ((ds.drop k).reverse.map Nat.digitChar) ++
        '.' :: ((ds.take k).reverse.map Nat.digitChar) := by
      simp only [decChars, if_neg hm, ← hdsdef]
      simp
    rcases hipc : (ds.drop k).reverse.map Nat.digitChar with _ | ⟨c, cs⟩
    · exact absurd (by simpa using hipc) hipne
    · have hcdig : c.isDigit = true := by
        have hcmem : c ∈ (ds.drop k).reverse.map Nat.digitChar :=
          hipc ▸ List.mem_cons_self c cs
        rcases List.mem_map.mp hcmem with ⟨d, hd, rfl⟩
        exact digitChar_isDigit (hip d hd)
      have h1 : (decChars m k).head? ≠ some '-' := by
        rw [hdc, hipc]
        intro hcontra
        simp only [List.cons_append, List.head?_cons, Option.some.injEq] at hcontra
        subst hcontra
        exact absurd hcdig (by decide)
      have h2 : (decChars m k).head? ≠ some '+' := by
        rw [hdc, hipc]
        intro hcontra
        simp only [List.cons_append, List.head?_cons, Option.some.injEq] at hcontra
        subst hcontra
        exact absurd hcdig (by decide)
      rw [parseFloat_not_sign h1 h2, hdc, hufloat]
      congr 1
      rw [Int.cast_natAbs, abs_of_nonneg (not_lt.mp hm)]

lemma parseFloat_finChars {q : ℚ} (h : decimalQ q) : parseFloat (finChars q) = some q := by
  rw [finChars]
  by_cases hden : q.den = 1
  · rw [if_pos hden, parseFloat_intChars]
    congr 1
    exact Rat.coe_int_num_of_den_eq_one hden
  · rw [if_neg hden]
    rcases decExp_isSome h with ⟨k, hk⟩
    rw [hk]
    dsimp only
    rw [parseFloat_decChars]
    have hden1 := decExp_spec hk
    have hint : (((q * 10 ^ k).num : ℤ) : ℚ) = q * 10 ^ k :=
      Rat.coe_int_num_of_den_eq_one hden1
    rw [hint]
    congr 1
    have h10 : ((10 : ℚ)) ^ k ≠ 0 := pow_ne_zero _ (by norm_num)
    field_simp

/-! ### Claim C4: round-trip infrastructure — well-formed ranges -/

lemma fval_le_of_not_lt {a b : FVal} (h : FVal.lt b a = false) : FVal.le a b = true := by
  cases a <;> cases b <;> simp_all [FVal.lt, FVal.le]

lemma fval_not_lt_of_le {a b : FVal} (h : FVal.le a b = true) : FVal.lt b a = false := by
  cases a <;> cases b <;> simp_all [FVal.lt, FVal.le]

/-- The invariant of every `Range` that `rangeParse` constructs: the start
is negative infinity or a finite decimal, the end is positive infinity or a
finite decimal, and the start is at most the end. -/
def RangeWF (r : Range) : Prop :=
  (r.start = .ninf ∨ ∃ q, r.start = .fin q ∧ decimalQ q) ∧
  (r.stop = .pinf ∨ ∃ q, r.stop = .fin q ∧ decimalQ q) ∧
  FVal.le r.start r.stop = true

lemma rangeBounds_ok_le {inc : Bool} {p0 p1 : List Char} {r : Range}
    (h : rangeBounds inc p0 p1 = .ok r) : FVal.lt r.stop r.start = false := by
  unfold rangeBounds at h
  rcases h0 : bStart p0 with _ | a <;> rw [h0] at h <;> dsimp only at h
  · cases h
  · rcases h1 : bEnd p1 with _ | b <;> rw [h1] at h <;> dsimp only at h
    · cases h
    · by_cases hlt : FVal.lt b a = true
      · rw [if_pos hlt] at h; cases h
      · rw [if_neg hlt] at h
        cases h
        simpa using hlt

lemma rangeBounds_wf {inc : Bool} {p0 p1 : List Char} {r : Range}
    (h : rangeBounds inc p0 p1 = .ok r) : RangeWF r := by
  obtain ⟨hinc, hst, hen⟩ := rangeBounds_ok _ _ _ _ h
  refine ⟨?_, ?_, fval_le_of_not_lt (rangeBounds_ok_le h)⟩
  · rw [bStart] at hst
    split at hst
    · exact Or.inl (Option.some.inj hst)
    · rcases hpf : parseFloat p0 with _ | q <;> rw [hpf] at hst
      · cases hst
      · simp only [Option.map_some'] at hst
        exact Or.inr ⟨q, Option.some.inj hst, parseFloat_dec hpf⟩
  · rw [bEnd] at hen
    split at hen
    · exact Or.inl (Option.some.inj hen)
    · rcases hpf : parseFloat p1 with _ | q <;> rw [hpf] at hen
      · cases hen
      · simp only [Option.map_some'] at hen
        exact Or.inr ⟨q, Option.some.inj hen, parseFloat_dec hpf⟩

lemma rangeParse_wf {s : String} {r : Range} (h : rangeParse s = .ok r) : RangeWF r := by
  by_cases hv : trimChars s.data = []
  · have herr : rangeParse s = .error "Range must not be empty" := by
      unfold rangeParse rangeParseChars
      simp [hv]
    rw [herr] at h
    cases h
  · have heq := rangeParse_eq s hv
    rcases hp : rpParts s with _ | ⟨p0, rest⟩
    · exact absurd hp (splitOnChar_ne_nil ':' (rpBody s))
    rcases rest with _ | ⟨p1, rest2⟩
    · rw [hp] at heq
      dsimp only at heq
      rw [heq] at h
      exact rangeBounds_wf h
    rcases rest2 with _ | ⟨p2, rest3⟩
    · rw [hp] at heq
      dsimp only at heq
      rw [heq] at h
      exact rangeBounds_wf h
    · rw [hp] at heq
      dsimp only at heq
      rw [heq] at h
      cases h

/-! ### Claim C4: round-trip infrastructure — printed ranges parse back -/

lemma intChars_ne_nil (m : Int) : intChars m ≠ [] := by
  rw [intChars]
  split
  · simp
  · exact natChars_ne_nil _

lemma decChars_ne_nil (m : Int) (k : Nat) : decChars m k ≠ [] := by
  simp only [decChars]
  intro h
  rcases List.append_eq_nil.mp h with ⟨h1, h2⟩
  cases h2

lemma finChars_ne_nil (q : ℚ) : finChars q ≠ [] := by
  rw [finChars]
  split
  · exact intChars_ne_nil _
  · rcases hde : decExp q with _ | k
    · exact intChars_ne_nil _
    · exact decChars_ne_nil _ _

lemma finChars_ne_tilde (q : ℚ) : finChars q ≠ ['~'] := by
  intro h
  have hmem : '~' ∈ finChars q := h ▸ List.mem_cons_self '~' []
  rcases finChars_class '~' hmem with hd | hd | hd <;> cases hd

lemma finChars_pySpace {q : ℚ} : ∀ c ∈ finChars q, pySpace c = false := by
  intro c hc
  rcases finChars_class c hc with hd | rfl | rfl
  · exact pySpace_eq_false_of_class (Or.inl hd)
  · decide
  · decide

lemma finChars_ne_colon {q : ℚ} : ∀ c ∈ finChars q, c ≠ ':' := by
  intro c hc
  rcases finChars_class c hc with hd | rfl | rfl
  · exact char_ne_of_isDigit hd ':' (by decide)
  · decide
  · decide

lemma finChars_ne_at {q : ℚ} : ∀ c ∈ finChars q, c ≠ '@' := by
  intro c hc
  rcases finChars_class c hc with hd | rfl | rfl
  · exact char_ne_of_isDigit hd '@' (by decide)
  · decide
  · decide

lemma head?_ne_of_forall {l : List Char} {d : Char} (h : ∀ c ∈ l, c ≠ d) :
    l.head? ≠ some d := by
  cases l with
  | nil => simp
  | cons c cs =>
    simp only [List.head?_cons, ne_eq, Option.some.injEq]
    exact h c (List.mem_cons_self c cs)

lemma bStart_tilde : bStart ['~'] = some .ninf := by decide

lemma bStart_zero : bStart ['0'] = some (.fin 0) := by decide

lemma bEnd_tilde : bEnd ['~'] = some .pinf := by decide

lemma bStart_finChars {q : ℚ} (h : decimalQ q) : bStart (finChars q) = some (.fin q) := by
  rw [bStart, if_neg (by simp [finChars_ne_tilde q]), parseFloat_finChars h]
  rfl

lemma bEnd_finChars {q : ℚ} (h : decimalQ q) : bEnd (finChars q) = some (.fin q) := by
  rw [bEnd, if_neg (by simp [finChars_ne_tilde q, finChars_ne_nil q]),
    parseFloat_finChars h]
  rfl

lemma rangeBounds_of_some {inc : Bool} {p0 p1 : List Char} {st en : FVal}
    (h0 : bStart p0 = some st) (h1 : bEnd p1 = some en)
    (hlt : FVal.lt en st = false) : rangeBounds inc p0 p1 = .ok ⟨inc, st, en⟩ := by
  unfold rangeBounds
  rw [h0]
  dsimp only
  rw [h1]
  dsimp only
  rw [if_neg (by simp [hlt])]

lemma rangeParseChars_pre (inc : Bool) (body : List Char)
    (hsp : ∀ c ∈ body, pySpace c = false)
    (hat : body.head? ≠ some '@')
    (hne : body ≠ []) :
    rangeParseChars ((if inc then ['@'] else []) ++ body) =
      (match splitOnChar ':' body with
      | [p] => rangeBounds inc ['0'] p
      | [p0, p1] => rangeBounds inc p0 p1
      | _ => .error "Range cannot have more than two parts.") := by
  cases inc with
  | true =>
    have htrim : trimChars ('@' :: body) = '@' :: body := by
      apply trimChars_eq_self
      intro c hc
      rcases List.mem_cons.mp hc with rfl | hc
      · decide
      · exact hsp c hc
    show rangeParseChars ('@' :: body) = _
    unfold rangeParseChars
    rw [htrim]
    simp only [List.isEmpty_cons, List.head?_cons, List.tail_cons]
    rw [if_neg (by simp)]
    simp only [beq_self_eq_true, if_true]
  | false =>
    rcases hbody : body with _ | ⟨c, cs⟩
    · exact absurd hbody hne
    have hc : c ≠ '@' := by
      rw [hbody] at hat
      simpa using hat
    have htrim : trimChars (c :: cs) = c :: cs := by
      apply trimChars_eq_self
      intro x hx
      exact hsp x (hbody ▸ hx)
    show rangeParseChars ([] ++ (c :: cs)) = _
    rw [List.nil_append]
    unfold rangeParseChars
    rw [htrim]
    simp only [List.isEmpty_cons, List.head?_cons]
    rw [if_neg (by simp)]
    rw [if_neg (by simp [hc])]
    rw [show ((some c == some '@') : Bool) = false by simp [hc]]

lemma rangeParse_rangeStr {r : Range} (h : RangeWF r) : rangeParse (rangeStr r) = .ok r := by
  obtain ⟨hst, hen, hle⟩ := h
  rcases r with ⟨inc, st, en⟩
  dsimp only at hst hen hle
  have hep : bEnd (stopChars en) = some en ∧ (∀ c ∈ stopChars en, pySpace c = false) ∧
      (∀ c ∈ stopChars en, c ≠ ':') ∧ (∀ c ∈ stopChars en, c ≠ '@') ∧ stopChars en ≠ [] := by
    rcases hen with rfl | ⟨q1, rfl, hdec1⟩
    · exact ⟨by decide, by decide, by decide, by decide, by decide⟩
    · exact ⟨bEnd_finChars hdec1, finChars_pySpace, finChars_ne_colon, finChars_ne_at,
        finChars_ne_nil q1⟩
  obtain ⟨hep1, hep2, hep3, hep4, hep5⟩ := hep
  have hlt : FVal.lt en st = false := fval_not_lt_of_le hle
  show rangeParseChars (rangeStr ⟨inc, st, en⟩).data = .ok ⟨inc, st, en⟩
  rcases hst with rfl | ⟨q0, rfl, hdec0⟩
  · -- start is negative infinity: body is "~:" ++ end
    have hdata : (rangeStr ⟨inc, FVal.ninf, en⟩).data =
        (if inc then ['@'] else []) ++ ('~' :: ':' :: stopChars en) := by
      simp [rangeStr, startChars]
    rw [hdata, rangeParseChars_pre]
    · rw [show ('~' :: ':' :: stopChars en) = ['~'] ++ ':' :: stopChars en from rfl,
        splitOnChar_append _ (by decide), splitOnChar_of_not_mem hep3]
      exact rangeBounds_of_some bStart_tilde hep1 hlt
    · intro c hc
      rcases List.mem_cons.mp hc with rfl | hc
      · decide
      · rcases List.mem_cons.mp hc with rfl | hc
        · decide
        · exact hep2 c hc
    · simp
    · simp
  · -- start is a finite decimal
    by_cases hq0 : q0 = 0
    · -- start 0 is omitted: body is just the end portion
      subst hq0
      have hdata : (rangeStr ⟨inc, FVal.fin 0, en⟩).data =
          (if inc then ['@'] else []) ++ stopChars en := by
        simp [rangeStr, startChars]
      rw [hdata, rangeParseChars_pre inc _ hep2 (head?_ne_of_forall hep4) hep5,
        splitOnChar_of_not_mem hep3]
      exact rangeBounds_of_some bStart_zero hep1 hlt
    · -- nonzero start: body is the printed start, a colon, the end portion
      have hdata : (rangeStr ⟨inc, FVal.fin q0, en⟩).data =
          (if inc then ['@'] else []) ++ (finChars q0 ++ ':' :: stopChars en) := by
        simp [rangeStr, startChars, if_neg hq0]
      rw [hdata, rangeParseChars_pre]
      · rw [splitOnChar_append _ finChars_ne_colon, splitOnChar_of_not_mem hep3]
        exact rangeBounds_of_some (bStart_finChars hdec0) hep1 hlt
      · intro c hc
        rcases List.mem_append.mp hc with hc | hc
        · exact finChars_pySpace c hc
        · rcases List.mem_cons.mp hc with rfl | hc
          · decide
          · exact hep2 c hc
      · apply head?_ne_of_forall
        intro c hc
        rcases List.mem_append.mp hc with hc | hc
        · exact finChars_ne_at c hc
        · rcases List.mem_cons.mp hc with rfl | hc
          · decide
          · exact hep4 c hc
      · simp [finChars_ne_nil q0]

/-- **C4.** Parsing, printing and re-parsing a `Range` is the identity on
`start`, `end` and `inclusive`; and on the five canonical inputs `10:20`,
`@10:20`, `~:20`, `10:~` and `10` the printed form reproduces the input
text exactly. -/
theorem claim_C4_roundtrip :
    (∀ (s : String) (r : Range), rangeParse s = .ok r → rangeParse (rangeStr r) = .ok r) ∧
    (rangeParse "10:20").map rangeStr = .ok "10:20" ∧
    (rangeParse "@10:20").map rangeStr = .ok "@10:20" ∧
    (rangeParse "~:20").map rangeStr = .ok "~:20" ∧
    (rangeParse "10:~").map rangeStr = .ok "10:~" ∧
    (rangeParse "10").map rangeStr = .ok "10" := by
  refine ⟨fun s r h => rangeParse_rangeStr (rangeParse_wf h), by decide, by decide, by decide,
    by decide, by decide⟩

/-- Witness for C4 at the concrete input `"10:20"`. -/
theorem claim_C4_witness :
    rangeParse (rangeStr ⟨false, .fin 10, .fin 20⟩) = .ok ⟨false, .fin 10, .fin 20⟩ :=
  claim_C4_roundtrip.1 "10:20" ⟨false, .fin 10, .fin 20⟩ (by decide)
